import Mathlib

/-!
Verification development for the document table reconstruction engine.

The engine turns positioned text fragments extracted from a PDF into a
rectangular table and a CSV string.  The definitions below are a shallow
embedding of the TypeScript source: strings are modelled as `List Char`,
JavaScript numbers as `ℚ` (all arithmetic in the engine is exact on the
inputs it performs: midpoints, incremental means, comparisons), pages as
`ℤ`.  JavaScript `Array.prototype.sort` (a stable comparison sort) is
modelled by `List.insertionSort`, which is stable.  Regular-expression
tests are hand-translated into decidable predicates on `List Char`.
-/

/-- Whitespace characters matched by the JavaScript regex class `\s`
(restricted to the ASCII range actually produced by the PDF extractor). -/
def isWsB (c : Char) : Bool :=
  c = ' ' || c = '\t' || c = '\n' || c = '\r' || c = '\x0c' || c = '\x0b'

/-- Horizontal whitespace: the JavaScript class `[ \t\f\v]`. -/
def isHSB (c : Char) : Bool :=
  c = ' ' || c = '\t' || c = '\x0c' || c = '\x0b'

/-- The JavaScript class `[0-9]`. -/
def isDigitB (c : Char) : Bool :=
  '0' ≤ c && c ≤ '9'

/-- A character in the Devanagari block, the class `[ऀ-ॿ]`. -/
def isDevanagariB (c : Char) : Bool :=
  0x900 ≤ c.toNat && c.toNat ≤ 0x97F

/-- Collapse every run of characters satisfying `p` to a single space.
Models `String.replace` with regex `p+` and replacement `" "`. -/
def collapseRuns (p : Char → Bool) : List Char → List Char
  | [] => []
  | [c] => if p c then [' '] else [c]
  | c :: d :: rest =>
    if p c then
      if p d then collapseRuns p (d :: rest)
      else ' ' :: collapseRuns p (d :: rest)
    else c :: collapseRuns p (d :: rest)

/-- JavaScript `String.prototype.trim`. -/
def trimWs (s : List Char) : List Char :=
  ((s.dropWhile isWsB).reverse.dropWhile isWsB).reverse

/-- Source `normalizeText`: collapse whitespace runs to one space and trim. -/
def normalizeText (s : List Char) : List Char :=
  trimWs (collapseRuns isWsB s)

/-- One pass of `replace(/\r\n/g, "\n")`. -/
def replaceCRLF : List Char → List Char
  | [] => []
  | [c] => [c]
  | c :: d :: rest =>
    if c = '\r' ∧ d = '\n' then '\n' :: replaceCRLF rest
    else c :: replaceCRLF (d :: rest)

/-- One pass of `replace(/\r/g, "\n")`. -/
def replaceCR (s : List Char) : List Char :=
  s.map fun c => if c = '\r' then '\n' else c

/-- Normalize CRLF and CR to LF, as both `normalizeCellValue` and the CSV
escaper do. -/
def normCR (s : List Char) : List Char :=
  replaceCR (replaceCRLF s)

/-- JavaScript `String.prototype.split` with a one-character separator. -/
def splitOnChar (sep : Char) : List Char → List (List Char)
  | [] => [[]]
  | c :: rest =>
    if c = sep then [] :: splitOnChar sep rest
    else
      match splitOnChar sep rest with
      | [] => [[c]]
      | l :: ls => (c :: l) :: ls

/-- JavaScript `Array.prototype.join` with separator `sep`. -/
def joinSep (sep : List Char) : List (List Char) → List Char
  | [] => []
  | [a] => a
  | a :: b :: rest => a ++ sep ++ joinSep sep (b :: rest)

/-- Source `normalizeCellValue`: normalize newlines, collapse horizontal
whitespace per line, trim each line, drop lines that become empty, and
rejoin with LF. -/
def normalizeCellValue (text : List Char) : List Char :=
  let lines :=
    ((splitOnChar '\n' (normCR text)).map fun l => trimWs (collapseRuns isHSB l)).filter
      fun l => decide (l ≠ [])
  joinSep ['\n'] lines

/-- The character class `[0-9+\-()/.,:]` from the numeric guard of
`maybePreetiToUnicode`. -/
def isNumPunctB (c : Char) : Bool :=
  isDigitB c || c = '+' || c = '-' || c = '(' || c = ')' || c = '/' || c = '.' || c = ',' || c = ':'

/-- The input with all whitespace removed (`text.replace(/\s+/g, "")`). -/
def compactOf (s : List Char) : List Char :=
  s.filter fun c => !isWsB c

/-- Source `maybePreetiToUnicode`.  The legacy-font conversion routine is an
external library; per the specification it is treated as an injected pure
function, here a parameter `conv` whose `none` result models a thrown
exception.  The digit-ratio guard `digits / length >= 0.6` is modelled by
the exact comparison `3 * length ≤ 5 * digits`. -/
def maybePreetiToUnicode (conv : List Char → Option (List Char)) (text : List Char) :
    List Char :=
  if text.any isDevanagariB then text
  else
    let compact := compactOf text
    if compact = [] then text
    else if compact.all isNumPunctB then text
    else if 0 < compact.length ∧ 3 * compact.length ≤ 5 * (compact.filter isDigitB).length then
      text
    else
      match conv text with
      | none => text
      | some converted => if converted.any isDevanagariB then converted else text

/-- Source type `ExtractedCell`: one positioned text run. -/
structure ExtractedCell where
  text : List Char
  x : ℚ
  y : ℚ
  width : ℚ
  height : ℚ
  page : ℤ
deriving DecidableEq

/-- Source type `ExtractedRow`. -/
structure ExtractedRow where
  page : ℤ
  y : ℚ
  cells : List ExtractedCell
deriving DecidableEq

/-- The comparator `(a, b) => a.page - b.page || b.y - a.y || a.x - b.x` of
`groupIntoRows`, read as a non-strict order. -/
def cellLe (a b : ExtractedCell) : Prop :=
  a.page < b.page ∨ (a.page = b.page ∧ (b.y < a.y ∨ (a.y = b.y ∧ a.x ≤ b.x)))

instance : DecidableRel cellLe := fun a b => by
  unfold cellLe; infer_instance

/-- The comparator `(a, b) => a.page - b.page || b.y - a.y` used to restore
document order, read as a non-strict order. -/
def rowLe (a b : ExtractedRow) : Prop :=
  a.page < b.page ∨ (a.page = b.page ∧ b.y ≤ a.y)

instance : DecidableRel rowLe := fun a b => by
  unfold rowLe; infer_instance

instance : IsTotal ExtractedRow rowLe where
  total a b := by
    unfold rowLe
    rcases lt_trichotomy a.page b.page with h | h | h
    · exact Or.inl (Or.inl h)
    · rcases le_total b.y a.y with hy | hy
      · exact Or.inl (Or.inr ⟨h, hy⟩)
      · exact Or.inr (Or.inr ⟨h.symm, hy⟩)
    · exact Or.inr (Or.inl h)

instance : IsTrans ExtractedRow rowLe where
  trans a b c hab hbc := by
    unfold rowLe at *
    rcases hab with h1 | ⟨h1, hy1⟩
    · rcases hbc with h2 | ⟨h2, _⟩
      · exact Or.inl (h1.trans h2)
      · exact Or.inl (h2 ▸ h1)
    · rcases hbc with h2 | ⟨h2, hy2⟩
      · exact Or.inl (h1 ▸ h2)
      · exact Or.inr ⟨h1.trans h2, hy2.trans hy1⟩

/-- The comparator `(a, b) => a.x - b.x` used to sort cells of a row. -/
def cellXLe (a b : ExtractedCell) : Prop :=
  a.x ≤ b.x

instance : DecidableRel cellXLe := fun a b => by
  unfold cellXLe; infer_instance

/-- JavaScript `xs.sort((a, b) => a - b)` on a list of numbers. -/
def sortAsc (xs : List ℚ) : List ℚ :=
  List.insertionSort (fun a b : ℚ => a ≤ b) xs

/-- Source `groupIntoRows`, the fold step: find the first existing row on the
same page whose running-average y is within `yTolerance`, append the cell and
update the running mean, otherwise start a new row at the end. -/
def insertCell (yTolerance : ℚ) : List ExtractedRow → ExtractedCell → List ExtractedRow
  | [], c => [⟨c.page, c.y, [c]⟩]
  | r :: rs, c =>
    if r.page = c.page ∧ |r.y - c.y| ≤ yTolerance then
      ⟨r.page, (r.y * r.cells.length + c.y) / (r.cells.length + 1), r.cells ++ [c]⟩ :: rs
    else r :: insertCell yTolerance rs c

/-- Source `groupIntoRows`. -/
def groupIntoRows (cells : List ExtractedCell) (yTolerance : ℚ) : List ExtractedRow :=
  let sorted := List.insertionSort cellLe cells
  let rows := sorted.foldl (insertCell yTolerance) []
  let rows2 := rows.map fun r => ⟨r.page, r.y, List.insertionSort cellXLe r.cells⟩
  List.insertionSort rowLe rows2

/-- Source `looksLikeMemberId`.  The regex anchors on a slash: because the
tail group contains no slash, the match splits the normalized text at its
last slash; the part before must be at least six digits followed by digits,
slashes or dashes, the part after must be one or two digits optionally
followed by a dash and one or two more digits. -/
def memberIdHead (a : List Char) : Bool :=
  decide (6 ≤ a.length) && (a.take 6).all isDigitB &&
    (a.drop 6).all fun c => isDigitB c || c = '/' || c = '-'

/-- One or two digits: `[0-9]{1,2}`. -/
def shortDigits (p : List Char) : Bool :=
  (decide (p.length = 1) || decide (p.length = 2)) && p.all isDigitB

/-- The tail group `[0-9]{1,2}(?:-[0-9]{1,2})?`. -/
def memberIdTail (b : List Char) : Bool :=
  match splitOnChar '-' b with
  | [p] => shortDigits p
  | [p, q] => shortDigits p && shortDigits q
  | _ => false

/-- Split a string at its last slash, returning the parts before and after. -/
def splitAtLastSlash (t : List Char) : Option (List Char × List Char) :=
  match (t.reverse.span fun c => decide (c ≠ '/')) with
  | (_, []) => none
  | (bRev, _ :: aRev) => some (aRev.reverse, bRev.reverse)

/-- Source `looksLikeMemberId`. -/
def looksLikeMemberId (text : List Char) : Bool :=
  match splitAtLastSlash (normalizeText text) with
  | none => false
  | some (a, b) => memberIdHead a && memberIdTail b

/-- The regex `^[0-9]{1,4}$`: a bare one-to-four digit serial. -/
def isSerialB (t : List Char) : Bool :=
  decide (t ≠ []) && decide (t.length ≤ 4) && t.all isDigitB

/-- Source `isRecordStartCell`: a one-to-four digit cell, not within 60 units
of its left neighbour, with a member-id-like cell within 320 units to its
right. -/
def isRecordStartCell (row : ExtractedRow) (idx : ℕ) : Bool :=
  match row.cells.get? idx with
  | none => false
  | some cell =>
    if !isSerialB (normalizeText cell.text) then false
    else
      let prevOk : Bool :=
        if idx = 0 then true
        else
          match row.cells.get? (idx - 1) with
          | none => true
          | some prev => decide (¬cell.x - prev.x < 60)
      if !prevOk then false
      else
        row.cells.any fun next =>
          decide (cell.x < next.x) && decide (next.x - cell.x ≤ 320) &&
            looksLikeMemberId next.text

/-- Source `clusterXs`, the running-centroid pass over an ascending list:
`clusterAux tol center count xs` is the cluster list from state
`{x := center, count}` and remaining inputs `xs`. -/
def clusterAux (tol : ℚ) : ℚ → ℕ → List ℚ → List (ℚ × ℕ)
  | c, n, [] => [(c, n)]
  | c, n, x :: xs =>
    if |x - c| ≤ tol then clusterAux tol ((c * n + x) / (n + 1)) (n + 1) xs
    else (c, n) :: clusterAux tol x 1 xs

/-- Cluster an ascending list of x positions, keeping membership counts
(lines 275-285 of the column inferencer reuse this inline on an already
sorted pool). -/
def clusterRuns (tol : ℚ) : List ℚ → List (ℚ × ℕ)
  | [] => []
  | x :: xs => clusterAux tol x 1 xs

/-- Source `clusterXs`: sort, cluster with a running centroid, return the
cluster centers.  The JavaScript `Number.isFinite` filter is vacuous in the
rational model and is omitted. -/
def clusterXs (xs : List ℚ) (tol : ℚ) : List ℚ :=
  (clusterRuns tol (sortAsc xs)).map Prod.fst

/-- `Math.max(...gaps)` over consecutive differences, `0` when there are no
gaps. -/
def maxGap (starts : List ℚ) : ℚ :=
  match List.zipWith (fun a b => a - b) starts.tail starts with
  | [] => 0
  | g :: gs => gs.foldl max g

/-- `Math.min(...)` on a nonempty list (the `[]` case is unreachable at all
call sites, which guard on at least four cells). -/
def listMin : List ℚ → ℚ
  | [] => 0
  | x :: xs => xs.foldl min x

/-- Midpoints of consecutive entries of an ascending list. -/
def midpoints (xs : List ℚ) : List ℚ :=
  List.zipWith (fun a b => (a + b) / 2) xs xs.tail

/-- The member-id cells of a row. -/
def idCellsOf (row : ExtractedRow) : List ExtractedCell :=
  row.cells.filter fun c => looksLikeMemberId c.text

/-- The clustered, ascending member-id anchor positions of strategy 1. -/
def idAnchorsOf (row : ExtractedRow) : List ℚ :=
  sortAsc (clusterXs ((idCellsOf row).map ExtractedCell.x) 40)

/-- Strategy 1 of the splitter: one block per id anchor, bounded by the
midpoints between consecutive anchors (`-Infinity`/`Infinity` at the outer
ends, modelled by `none`); blocks with fewer than four cells are dropped,
the rest are re-zeroed to their minimum x and sorted by x. -/
def anchorBlocks (row : ExtractedRow) (anchors : List ℚ) : List ExtractedRow :=
  let boundaries := midpoints anchors
  (List.range anchors.length).filterMap fun bi =>
    let left : Option ℚ := if bi = 0 then none else boundaries.get? (bi - 1)
    let right : Option ℚ := if bi + 1 = anchors.length then none else boundaries.get? bi
    let cells := row.cells.filter fun c =>
      (match left with | none => true | some l => decide (l < c.x)) &&
        (match right with | none => true | some r => decide (c.x ≤ r))
    if cells.length < 4 then none
    else
      let m := listMin (cells.map ExtractedCell.x)
      some ⟨row.page, row.y,
        List.insertionSort cellXLe (cells.map fun c => { c with x := c.x - m })⟩

/-- The serial-near-id start positions of strategy 2: for one id cell, the
closest one-to-four digit cell within 260 units to its left. -/
def nearestSerialLeft (cells : List ExtractedCell) (idCell : ExtractedCell) : Option ℚ :=
  cells.foldl
    (fun best c =>
      if decide (c.x < idCell.x) && decide (idCell.x - c.x ≤ 260) &&
          isSerialB (normalizeText c.text) then
        match best with
        | none => some c.x
        | some bx => if idCell.x - c.x < idCell.x - bx then some c.x else some bx
      else best)
    none

/-- All strategy 2 start positions of a row. -/
def serialStarts (row : ExtractedRow) : List ℚ :=
  (idCellsOf row).filterMap (nearestSerialLeft row.cells)

/-- Strategy 3: scan every cell index for `isRecordStartCell`. -/
def recordStartXs (row : ExtractedRow) : List ℚ :=
  (List.range row.cells.length).filterMap fun i =>
    if isRecordStartCell row i then (row.cells.get? i).map ExtractedCell.x else none

/-- The clustered record-start path (lines 127-140): one block per start,
spanning `[start - 1, nextStart - 1)` (unbounded on the right for the last
start), re-zeroed to the block start; blocks with fewer than four cells are
dropped. -/
def splitBlocks (row : ExtractedRow) (starts : List ℚ) : List ExtractedRow :=
  (List.range starts.length).filterMap fun bi =>
    match starts.get? bi with
    | none => none
    | some left =>
      let right : Option ℚ := if bi + 1 = starts.length then none else starts.get? (bi + 1)
      let cells := (row.cells.filter fun c =>
          decide (left - 1 ≤ c.x) &&
            (match right with | none => true | some r => decide (c.x < r - 1))).map
        fun c => { c with x := c.x - left }
      if 4 ≤ cells.length then
        some ⟨row.page, row.y, List.insertionSort cellXLe cells⟩
      else none

/-- Lines 113-142 of the splitter: fall back to the record-start scan when no
start positions were collected, cluster the starts with tolerance 18, refuse
to split on fewer than two clusters or a maximum gap under 140, and return
the original row when no block qualifies. -/
def explodeFinish (row : ExtractedRow) (startXs0 : List ℚ) : List ExtractedRow :=
  let sx := if startXs0 = [] then recordStartXs row else startXs0
  let starts := sortAsc (clusterXs sx 18)
  if starts.length ≤ 1 then [row]
  else if maxGap starts < 140 then [row]
  else
    let blocks := splitBlocks row starts
    if blocks = [] then [row] else blocks

/-- Source `explodeMultiRecordRow`. -/
def explodeMultiRecordRow (row : ExtractedRow) : List ExtractedRow :=
  if 2 ≤ (idCellsOf row).length then
    let idAnchors := idAnchorsOf row
    if 2 ≤ idAnchors.length ∧ 160 ≤ maxGap idAnchors then
      let blocks := anchorBlocks row idAnchors
      if 2 ≤ blocks.length then blocks else explodeFinish row (serialStarts row)
    else explodeFinish row (serialStarts row)
  else explodeFinish row []

/-- Source `explodeMultiRecordRows`: split every row, then re-sort by
`(page asc, y desc)`. -/
def explodeMultiRecordRows (rows : List ExtractedRow) : List ExtractedRow :=
  List.insertionSort rowLe (rows.map explodeMultiRecordRow).flatten

/-- Bool test that `pat` occurs at the start of `s`. -/
def leadsWith : List Char → List Char → Bool
  | [], _ => true
  | _ :: _, [] => false
  | a :: as, b :: bs => a = b && leadsWith as bs

/-- Bool test that `pat` occurs somewhere inside `s`, the JavaScript
`String.prototype.includes` and the search semantics of `RegExp.test`. -/
def containsSeq (pat : List Char) : List Char → Bool
  | [] => pat.isEmpty
  | c :: t => leadsWith pat (c :: t) || containsSeq pat t

/-- Source `rowText`: space-join the cell texts and normalize. -/
def rowText (row : ExtractedRow) : List Char :=
  normalizeText (joinSep [' '] (row.cells.map ExtractedCell.text))

/-- Source `isHeaderRow`: the joined normalized text contains one of three
Nepali header phrases. -/
def isHeaderRow (row : ExtractedRow) : Bool :=
  let t := rowText row
  containsSeq "क्र.सं".data t || containsSeq "क्रियाशील नं".data t ||
    containsSeq "सदस्यको नाम".data t

/-- Source `isHeaderLikeToken`: nonempty normalized text that is neither a
member id nor a bare serial and matches the header-keyword regex.  The
alternative `क्र\.?सं` is the two substring tests with and without the dot;
the optional trailing dot of `नं\.?` is irrelevant to a search. -/
def isHeaderLikeToken (text : List Char) : Bool :=
  let t := normalizeText text
  if t = [] then false
  else if looksLikeMemberId t then false
  else if isSerialB t then false
  else
    containsSeq "क्रसं".data t || containsSeq "क्र.सं".data t ||
      containsSeq "क्रियाशील".data t || containsSeq "क्रियाशिल".data t ||
      containsSeq "नम्बर".data t || containsSeq "नं".data t ||
      containsSeq "सदस्य".data t || containsSeq "नाम".data t ||
      containsSeq "बाबु".data t || containsSeq "आमा".data t ||
      containsSeq "आमाको".data t || containsSeq "पति".data t ||
      containsSeq "पत्नी".data t || containsSeq "लिङ्ग".data t ||
      containsSeq "लिंग".data t || containsSeq "उमेर".data t ||
      containsSeq "समावेशी".data t || containsSeq "समुह".data t ||
      containsSeq "समूह".data t || containsSeq "शिक्षा".data t ||
      containsSeq "टोल".data t || containsSeq "सम्पर्क".data t ||
      containsSeq "कैफियत".data t || containsSeq "नामसारी".data t

/-- Source `sanitizeHeaderRow`: keep only header-like tokens, reverting to
the original row when fewer than four remain. -/
def sanitizeHeaderRow (row : ExtractedRow) : ExtractedRow :=
  let kept := row.cells.filter fun c => isHeaderLikeToken c.text
  if 4 ≤ kept.length then ⟨row.page, row.y, kept⟩ else row

/-- Source `isLikelyDataRow`: at least four cells, a raw one-to-four digit
serial cell, and a member-id cell. -/
def isLikelyDataRow (row : ExtractedRow) : Bool :=
  decide (4 ≤ row.cells.length) && (row.cells.any fun c => isSerialB c.text) &&
    (row.cells.any fun c => looksLikeMemberId c.text)

/-- Source `findHeaderRowIndex`: index of the first header row, `-1` when
none matches. -/
def findHeaderRowIndex (rows : List ExtractedRow) : ℤ :=
  match rows.findIdx? isHeaderRow with
  | some i => (i : ℤ)
  | none => -1

/-- Record an x as a new start only when it is at least `tol` past the
previously recorded start (the previous start begins at `-Infinity`,
modelled by `none`). -/
def pickGapped (tol : ℚ) : Option ℚ → List ℚ → List ℚ
  | _, [] => []
  | prev, x :: xs =>
    if (match prev with | none => true | some p => decide (tol ≤ x - p)) then
      x :: pickGapped tol (some x) xs
    else pickGapped tol prev xs

/-- The header-derived column starts: ascending x positions thinned to jumps
of at least 34 units. -/
def headerStartsOf (headerRow : ExtractedRow) : List ℚ :=
  pickGapped 34 none (sortAsc (headerRow.cells.map ExtractedCell.x))

/-- Source `inferColumnStopsFromHeaderRow`. -/
def inferColumnStopsFromHeaderRow (headerRow : ExtractedRow) : List ℚ :=
  let xs := sortAsc (headerRow.cells.map ExtractedCell.x)
  if xs.length < 2 then []
  else
    let starts := pickGapped 34 none xs
    if starts.length < 2 then [] else midpoints starts

/-- The sample of up to 30 likely data rows. -/
def likelySample (rows : List ExtractedRow) : List ExtractedRow :=
  (rows.filter isLikelyDataRow).take 30

/-- All per-row start positions pooled over the sample (within each row an x
counts as a start only 8 or more units past the previous start). -/
def pooledStarts (rows : List ExtractedRow) : List ℚ :=
  ((likelySample rows).map fun r =>
    pickGapped 8 none (sortAsc (r.cells.map ExtractedCell.x))).flatten

/-- The statistically significant cluster centers of the pooled starts:
clusters (tolerance 4) whose membership reaches
`max(3, floor(0.2 * sampleSize))`. -/
def significantXs (rows : List ExtractedRow) : List ℚ :=
  let minCount := max 3 ((likelySample rows).length / 5)
  ((clusterRuns 4 (sortAsc (pooledStarts rows))).filter fun c =>
    decide (minCount ≤ c.2)).map Prod.fst

/-- The significant centers, possibly extended by the header row's rightmost
x when no cluster lies within 8 units of it and it lies more than 12 units
beyond the rightmost cluster. -/
def columnXsOf (rows : List ExtractedRow) (headerRow : Option ExtractedRow) : List ℚ :=
  let base := significantXs rows
  match headerRow with
  | none => base
  | some h =>
    match (sortAsc (h.cells.map ExtractedCell.x)).getLast? with
    | none => base
    | some rightmost =>
      let hasNear := base.any fun x => decide (|x - rightmost| ≤ 8)
      let beyond : Bool :=
        match base with
        | [] => true
        | b :: bs => decide (bs.foldl max b + 12 < rightmost)
      if !hasNear && beyond then base ++ [rightmost] else base

/-- The header fallback used by the data-row inferencer. -/
def headerFallback (headerRow : Option ExtractedRow) : List ℚ :=
  match headerRow with
  | some h => inferColumnStopsFromHeaderRow (sanitizeHeaderRow h)
  | none => []

/-- Source `inferColumnStopsFromDataRows`. -/
def inferColumnStopsFromDataRows (rows : List ExtractedRow)
    (headerRow : Option ExtractedRow) : List ℚ :=
  if likelySample rows = [] then headerFallback headerRow
  else
    let columnXs := columnXsOf rows headerRow
    if columnXs.length < 2 then headerFallback headerRow
    else midpoints (sortAsc columnXs)

/-- Source `rowToColumns`: with no stops, one joined cell; otherwise place
every cell text into the first column whose stop exceeds its x (the last
column when none does), normalizing as it accumulates. -/
def rowToColumns (row : ExtractedRow) (stops : List ℚ) : List (List Char) :=
  if stops = [] then [normalizeCellValue (joinSep [' '] (row.cells.map ExtractedCell.text))]
  else
    let init : List (List Char) := List.replicate (stops.length + 1) []
    let cols := row.cells.foldl
      (fun cols c =>
        let colIndex :=
          match stops.findIdx? (fun s => decide (c.x < s)) with
          | some i => i
          | none => cols.length - 1
        cols.set colIndex (normalizeCellValue (trimWs (cols.getD colIndex [] ++ ' ' :: c.text))))
      init
    cols.map normalizeCellValue

/-- Source `collectMainTable`: the sanitized header first, then every other
row that is not header-like and passes the likely-data filter.  The header
index is an integer because `findHeaderRowIndex` uses `-1` as its not-found
sentinel, on which the lookup fails and the table is empty. -/
def collectMainTable (rows : List ExtractedRow) (stops : List ℚ) (headerIdx : ℤ) :
    List (List (List Char)) :=
  let headerCell :=
    if 0 ≤ headerIdx then rows.get? headerIdx.toNat else none
  match headerCell with
  | none => []
  | some headerRow =>
    rowToColumns (sanitizeHeaderRow headerRow) stops ::
      (List.range rows.length).filterMap fun i =>
        if Int.ofNat i = headerIdx then none
        else
          match rows.get? i with
          | none => none
          | some r =>
            if isHeaderRow r then none
            else if !isLikelyDataRow r then none
            else some (rowToColumns r stops)

/-- The special characters of the CSV escaper, the regex class `[\n\r",]`. -/
def isCsvSpecial (c : Char) : Bool :=
  c = '\n' || c = '\r' || c = '"' || c = ','

/-- Double every double-quote, `replace(/"/g, '""')`. -/
def dupQuotes : List Char → List Char
  | [] => []
  | c :: rest => if c = '"' then '"' :: '"' :: dupQuotes rest else c :: dupQuotes rest

/-- The per-cell escaper of `toCsv`: quote when the cell contains a newline,
carriage return, double quote or comma, after normalizing CRLF and CR to
LF. -/
def escCsv (v : List Char) : List Char :=
  let s := normCR v
  if v.any isCsvSpecial then '"' :: (dupQuotes s ++ ['"']) else s

/-- One serialized CSV record. -/
def csvLine (r : List (List Char)) : List Char :=
  joinSep [','] (r.map escCsv)

/-- Source `toCsv`: newline-join the records and append a trailing
newline. -/
def toCsv (rows : List (List (List Char))) : List Char :=
  joinSep ['\n'] (rows.map csvLine) ++ ['\n']

/-- Parser state of a standard RFC4180 CSV reader: at the start of a field,
inside an unquoted field, inside a quoted field, or just after a quote
inside a quoted field. -/
inductive CsvMode where
  | startF
  | unq
  | q
  | qq
deriving DecidableEq

/-- A standard RFC4180 CSV reader as a character-driven state machine, with
LF record terminators and doubled quotes inside quoted fields.  At end of
input the pending field and record are emitted unless nothing is pending
(the position right after a record terminator). -/
def runCsv (m : CsvMode) (field : List Char) (row : List (List Char))
    (rows : List (List (List Char))) : List Char → List (List (List Char))
  | [] =>
    if m = CsvMode.startF ∧ field = [] ∧ row = [] then rows
    else rows ++ [row ++ [field]]
  | c :: rest =>
    match m with
    | CsvMode.startF =>
      if c = '"' then runCsv CsvMode.q field row rows rest
      else if c = ',' then runCsv CsvMode.startF [] (row ++ [field]) rows rest
      else if c = '\n' then runCsv CsvMode.startF [] [] (rows ++ [row ++ [field]]) rest
      else runCsv CsvMode.unq (field ++ [c]) row rows rest
    | CsvMode.unq =>
      if c = ',' then runCsv CsvMode.startF [] (row ++ [field]) rows rest
      else if c = '\n' then runCsv CsvMode.startF [] [] (rows ++ [row ++ [field]]) rest
      else runCsv CsvMode.unq (field ++ [c]) row rows rest
    | CsvMode.q =>
      if c = '"' then runCsv CsvMode.qq field row rows rest
      else runCsv CsvMode.q (field ++ [c]) row rows rest
    | CsvMode.qq =>
      if c = '"' then runCsv CsvMode.q (field ++ [c]) row rows rest
      else if c = ',' then runCsv CsvMode.startF [] (row ++ [field]) rows rest
      else if c = '\n' then runCsv CsvMode.startF [] [] (rows ++ [row ++ [field]]) rest
      else runCsv CsvMode.unq (field ++ [c]) row rows rest

/-- Parse a CSV document into its records. -/
def parseCsv (s : List Char) : List (List (List Char)) :=
  runCsv CsvMode.startF [] [] [] s

/-- The condition under which strategy 1 of the splitter returns its anchor
blocks: at least two member-id cells, at least two anchor clusters separated
by a maximum gap of at least 160, and at least two surviving blocks. -/
def strategy1Cond (row : ExtractedRow) : Prop :=
  2 ≤ (idCellsOf row).length ∧ 2 ≤ (idAnchorsOf row).length ∧
    160 ≤ maxGap (idAnchorsOf row) ∧ 2 ≤ (anchorBlocks row (idAnchorsOf row)).length

instance : Decidable (strategy1Cond row) := by
  unfold strategy1Cond; infer_instance

/-- The start positions that reach the final clustering step: the
serial-near-id positions when there are two or more member-id cells, the
record-start scan otherwise or when no serial position was found. -/
def effStartXsOf (row : ExtractedRow) : List ℚ :=
  if 2 ≤ (idCellsOf row).length then
    if serialStarts row = [] then recordStartXs row else serialStarts row
  else recordStartXs row

/-- The clustered, ascending start positions of the final splitting step. -/
def startsOf (row : ExtractedRow) : List ℚ :=
  sortAsc (clusterXs (effStartXsOf row) 18)

/-- Test fixture: a cell with the given text and x, all other coordinates
zero. -/
def fixtureCell (t : String) (x : ℚ) : ExtractedCell :=
  ⟨t.data, x, 0, 0, 0, 0⟩

/-- Test fixture: a cell with the given text and y on page 0. -/
def fixtureCellY (t : String) (y : ℚ) : ExtractedCell :=
  ⟨t.data, 0, y, 0, 0, 0⟩

/-- Test fixture for the row grouper: three fragments at y 10, 8.5 and 7. -/
def fragA : ExtractedCell := fixtureCellY "A" 10

/-- Second grouping fixture fragment. -/
def fragB : ExtractedCell := fixtureCellY "B" (17 / 2)

/-- Third grouping fixture fragment. -/
def fragC : ExtractedCell := fixtureCellY "C" 7

/-- Test fixture: a likely data row whose only stable column start is x = 0;
the remaining x positions drift from row to row. -/
def c3DataRow (i : ℚ) : ExtractedRow :=
  ⟨0, 0, [fixtureCell "1" 0, fixtureCell "123456/1" (100 + 10 * i),
    fixtureCell "a" (500 + 30 * i), fixtureCell "b" (600 + 40 * i)]⟩

/-- Test fixture: three drifting data rows. -/
def c3Rows : List ExtractedRow := [c3DataRow 0, c3DataRow 1, c3DataRow 2]

/-- Test fixture: a header row whose rightmost cell lies far beyond the data
columns. -/
def c3Hdr : ExtractedRow :=
  ⟨0, 0, [fixtureCell "h1" 0, fixtureCell "h2" 50, fixtureCell "h3" 400]⟩

/-- Test fixture: a single-record row (one member id, one record start). -/
def c1Row : ExtractedRow :=
  ⟨0, 0, [fixtureCell "1" 0, fixtureCell "123456/1" 40, fixtureCell "a" 60,
    fixtureCell "b" 80]⟩

/-- Test fixture: a two-record row for the clustered record-start path with a
stray cell at x = -80, far left of the first detected start. -/
def c9Row : ExtractedRow :=
  ⟨0, 0, [fixtureCell "z" (-80), fixtureCell "1" 0, fixtureCell "a" 30,
    fixtureCell "b" 60, fixtureCell "e" 90, fixtureCell "2" 200,
    fixtureCell "234567/2" 300, fixtureCell "c" 320, fixtureCell "d" 340]⟩

/-- Test fixture: a one-cell table whose cell exercises comma, quote and
newline escaping at once. -/
def c4Table : List (List (List Char)) :=
  [["a,b".data, "c\"d\ne".data]]

theorem foldl_preserves_length {α β : Type} (f : List α → β → List α)
    (hf : ∀ cols c, (f cols c).length = cols.length) :
    ∀ (l : List β) (cols : List α), (l.foldl f cols).length = cols.length := by
  intro l
  induction l with
  | nil => intro cols; rfl
  | cons c cs ih =>
    intro cols
    rw [List.foldl_cons, ih, hf]

theorem rowToColumns_length (row : ExtractedRow) (stops : List ℚ) :
    (rowToColumns row stops).length = stops.length + 1 := by
  unfold rowToColumns
  by_cases h : stops = []
  · simp [h]
  · rw [if_neg h, List.length_map, foldl_preserves_length]
    · exact List.length_replicate _ _
    · intro cols c
      exact List.length_set ..

/-- C5.  Table rectangularity: every row emitted by `collectMainTable` has
exactly `stops.length + 1` entries (in particular one entry when `stops` is
empty), the same count as the header row, for every input row list, stop
list and header index. -/
theorem c5_table_rectangularity (rows : List ExtractedRow) (stops : List ℚ)
    (headerIdx : ℤ) :
    ∀ r ∈ collectMainTable rows stops headerIdx, r.length = stops.length + 1 := by
  intro r hr
  simp only [collectMainTable] at hr
  split at hr
  · exact absurd hr (List.not_mem_nil r)
  · rcases List.mem_cons.mp hr with h | h
    · rw [h]; exact rowToColumns_length ..
    · rcases List.mem_filterMap.mp h with ⟨i, _, hi⟩
      split at hi
      · exact absurd hi (by simp)
      · split at hi
        · exact absurd hi (by simp)
        · split at hi
          · exact absurd hi (by simp)
          · split at hi
            · exact absurd hi (by simp)
            · rw [← Option.some_inj.mp hi]; exact rowToColumns_length ..

/-- C5 witness: a concrete one-row table with an empty stop list yields a
one-column row. -/
theorem c5_table_rectangularity_witness :
    rowToColumns (sanitizeHeaderRow c1Row) [] ∈ collectMainTable [c1Row] [] 0 ∧
      (rowToColumns (sanitizeHeaderRow c1Row) []).length = ([] : List ℚ).length + 1 :=
  ⟨by decide, c5_table_rectangularity [c1Row] [] 0 _ (by decide)⟩

/-- C7.  Order preservation: the output of `explodeMultiRecordRows` is sorted
by page ascending and, within a page, by y descending (the order `rowLe`). -/
theorem c7_order_preservation (rows : List ExtractedRow) :
    List.Sorted rowLe (explodeMultiRecordRows rows) := by
  unfold explodeMultiRecordRows
  exact List.sorted_insertionSort rowLe _

/-- C6.  Preeti conversion is never destructive: for every conversion
routine `conv` and string `s`, the result is either `s` itself or the
converted string, and the converted string is used only when the conversion
succeeded and produced Devanagari; in particular the input is returned
unchanged when it already contains Devanagari, when its whitespace-free
compaction is purely numeric and punctuation, when at least sixty percent of
the compacted characters are digits, when the conversion fails, and when the
conversion result contains no Devanagari. -/
theorem c6_preeti_never_destructive (conv : List Char → Option (List Char))
    (s : List Char) :
    (maybePreetiToUnicode conv s = s ∨
      ∃ t, conv s = some t ∧ maybePreetiToUnicode conv s = t ∧
        t.any isDevanagariB = true) ∧
    (s.any isDevanagariB = true → maybePreetiToUnicode conv s = s) ∧
    ((compactOf s).all isNumPunctB = true → maybePreetiToUnicode conv s = s) ∧
    (3 * (compactOf s).length ≤ 5 * ((compactOf s).filter isDigitB).length →
      maybePreetiToUnicode conv s = s) ∧
    (conv s = none → maybePreetiToUnicode conv s = s) ∧
    (∀ t, conv s = some t → t.any isDevanagariB = false →
      maybePreetiToUnicode conv s = s) := by
  by_cases hdev : s.any isDevanagariB = true
  · refine ⟨Or.inl ?_, fun _ => ?_, fun _ => ?_, fun _ => ?_, fun _ => ?_,
      fun t _ _ => ?_⟩ <;> simp [maybePreetiToUnicode, hdev]
  · by_cases hc : compactOf s = []
    · refine ⟨Or.inl ?_, fun _ => ?_, fun _ => ?_, fun _ => ?_, fun _ => ?_,
        fun t _ _ => ?_⟩ <;> simp [maybePreetiToUnicode, hdev, hc]
    · by_cases hn : (compactOf s).all isNumPunctB = true
      · refine ⟨Or.inl ?_, fun _ => ?_, fun _ => ?_, fun _ => ?_, fun _ => ?_,
          fun t _ _ => ?_⟩ <;> simp [maybePreetiToUnicode, hdev, hc, hn]
      · have hlen : 0 < (compactOf s).length := List.length_pos.mpr hc
        by_cases hr : 3 * (compactOf s).length ≤ 5 * ((compactOf s).filter isDigitB).length
        · refine ⟨Or.inl ?_, fun _ => ?_, fun h => absurd h hn, fun _ => ?_,
            fun _ => ?_, fun t _ _ => ?_⟩ <;>
            simp [maybePreetiToUnicode, hdev, hc, hn, hlen, hr]
        · rcases hcv : conv s with _ | t
          · refine ⟨Or.inl ?_, fun h => absurd h hdev, fun h => absurd h hn,
              fun h => absurd h hr, fun _ => ?_, fun t h _ => Option.noConfusion h⟩ <;>
              simp [maybePreetiToUnicode, hdev, hc, hn, hr, hcv]
          · by_cases ht : t.any isDevanagariB = true
            · refine ⟨Or.inr ⟨t, rfl, ?_, ht⟩, fun h => absurd h hdev,
                fun h => absurd h hn, fun h => absurd h hr,
                fun h => Option.noConfusion h,
                fun u hu hany => ?_⟩
              · simp [maybePreetiToUnicode, hdev, hc, hn, hr, hcv, ht]
              · rw [← Option.some_inj.mp hu] at hany
                rw [ht] at hany
                cases hany
            · refine ⟨Or.inl ?_, fun h => absurd h hdev, fun h => absurd h hn,
                fun h => absurd h hr, fun h => Option.noConfusion h,
                fun u hu hany => ?_⟩ <;>
                simp [maybePreetiToUnicode, hdev, hc, hn, hr, hcv, ht]

/-- C6 witness: the purely numeric string is returned unchanged for a
conversion routine that always fails. -/
theorem c6_preeti_never_destructive_witness :
    ("12345".data.filter fun c => !isWsB c).all isNumPunctB = true ∧
      maybePreetiToUnicode (fun _ => none) "12345".data = "12345".data :=
  ⟨by decide,
    (c6_preeti_never_destructive (fun _ => none) "12345".data).2.2.1 (by decide)⟩

/-- C1.  Fail-safe non-split: a row with at most one member-id cell, whose
clustered record-start positions form at most one cluster or are separated
by a maximum gap below 140, is returned unchanged as a one-element list;
no clustering step that misses its confidence thresholds alters the row. -/
theorem c1_fail_safe_non_split (row : ExtractedRow)
    (h1 : (idCellsOf row).length ≤ 1)
    (h2 : (startsOf row).length ≤ 1 ∨ maxGap (startsOf row) < 140) :
    explodeMultiRecordRow row = [row] := by
  have hid : ¬2 ≤ (idCellsOf row).length := by omega
  have hse : effStartXsOf row = recordStartXs row := by
    unfold effStartXsOf; rw [if_neg hid]
  have h2x : (sortAsc (clusterXs (recordStartXs row) 18)).length ≤ 1 ∨
      maxGap (sortAsc (clusterXs (recordStartXs row) 18)) < 140 := by
    rw [← hse]; exact h2
  rcases h2x with h | h <;>
    simp [explodeMultiRecordRow, hid, explodeFinish, h]

unseal Rat.add Rat.sub Rat.mul Rat.inv in
/-- C1 witness: a concrete single-record row (one member id, one detected
start) passes through the splitter unchanged. -/
theorem c1_fail_safe_non_split_witness :
    ((idCellsOf c1Row).length ≤ 1 ∧
      ((startsOf c1Row).length ≤ 1 ∨ maxGap (startsOf c1Row) < 140)) ∧
      explodeMultiRecordRow c1Row = [c1Row] :=
  ⟨by decide, c1_fail_safe_non_split c1Row (by decide) (by decide)⟩

unseal Rat.add Rat.sub Rat.mul Rat.inv in
/-- C3 counterexample: a sample with exactly one significant column-start
cluster (fewer than two) for which `inferColumnStopsFromDataRows` does not
fall back to the header-derived stops: the header row's rightmost x is
appended as a second boundary and a stop midway to it is emitted instead. -/
theorem c3_column_inference_counterexample :
    (significantXs c3Rows).length < 2 ∧
      inferColumnStopsFromDataRows c3Rows (some c3Hdr) ≠
        inferColumnStopsFromHeaderRow (sanitizeHeaderRow c3Hdr) := by
  decide

/-- C3 (amended).  Column inference degradation: when the sample of likely
data rows is empty, or when fewer than two column x positions remain after
the significance filter and the possible append of the header row's
rightmost x, `inferColumnStopsFromDataRows` falls back to the header-derived
stops on the sanitized header (the empty list without a header row); and
whenever the header row yields fewer than two accepted starts, the header
inference returns the empty list, forcing single-column assembly, rather
than raising. -/
theorem c3_column_inference_degradation_amended (rows : List ExtractedRow)
    (headerRow : Option ExtractedRow)
    (h : likelySample rows = [] ∨ (columnXsOf rows headerRow).length < 2) :
    inferColumnStopsFromDataRows rows headerRow = headerFallback headerRow ∧
      ∀ hr : ExtractedRow, (headerStartsOf hr).length < 2 →
        inferColumnStopsFromHeaderRow hr = [] := by
  constructor
  · unfold inferColumnStopsFromDataRows
    by_cases hs : likelySample rows = []
    · rw [if_pos hs]
    · rcases h with h | h
      · exact absurd h hs
      · rw [if_neg hs]
        simp only [if_pos h]
  · intro hr hlt
    unfold inferColumnStopsFromHeaderRow
    by_cases hxs : (sortAsc (hr.cells.map ExtractedCell.x)).length < 2
    · rw [if_pos hxs]
    · rw [if_neg hxs]
      unfold headerStartsOf at hlt
      simp only [if_pos hlt]

/-- C3 witness: with no rows and no header row the inferencer degrades to
the empty stop list. -/
theorem c3_column_inference_degradation_witness :
    (likelySample [] = [] ∨ (columnXsOf [] none).length < 2) ∧
      inferColumnStopsFromDataRows [] none = headerFallback none :=
  ⟨Or.inl rfl, (c3_column_inference_degradation_amended [] none (Or.inl rfl)).1⟩

theorem mem_trimWs {c : Char} {l : List Char} (h : c ∈ trimWs l) : c ∈ l := by
  unfold trimWs at h
  rw [List.mem_reverse] at h
  have h2 := (List.dropWhile_sublist isWsB).mem h
  rw [List.mem_reverse] at h2
  exact (List.dropWhile_sublist isWsB).mem h2

theorem mem_collapseRuns {p : Char → Bool} :
    ∀ {l : List Char} {c : Char}, c ∈ collapseRuns p l → c = ' ' ∨ c ∈ l := by
  intro l
  induction l with
  | nil => intro c h; cases h
  | cons a tail ih =>
    intro c h
    cases tail with
    | nil =>
      unfold collapseRuns at h
      by_cases hp : p a
      · rw [if_pos hp] at h
        rcases List.mem_singleton.mp h with h
        exact Or.inl h
      · rw [if_neg hp] at h
        exact Or.inr h
    | cons d rest =>
      unfold collapseRuns at h
      by_cases hp : p a
      · rw [if_pos hp] at h
        by_cases hd : p d
        · rw [if_pos hd] at h
          rcases ih h with h | h
          · exact Or.inl h
          · exact Or.inr (List.mem_cons_of_mem a h)
        · rw [if_neg hd] at h
          rcases List.mem_cons.mp h with h | h
          · exact Or.inl h
          · rcases ih h with h | h
            · exact Or.inl h
            · exact Or.inr (List.mem_cons_of_mem a h)
      · rw [if_neg hp] at h
        rcases List.mem_cons.mp h with h | h
        · exact Or.inr (h ▸ List.mem_cons_self a _)
        · rcases ih h with h | h
          · exact Or.inl h
          · exact Or.inr (List.mem_cons_of_mem a h)

theorem splitOnChar_ne_nil (sep : Char) (s : List Char) : splitOnChar sep s ≠ [] := by
  cases s with
  | nil => simp [splitOnChar]
  | cons c rest =>
    unfold splitOnChar
    by_cases h : c = sep
    · simp [h]
    · rw [if_neg h]
      split <;> simp

theorem mem_splitOnChar_not_sep {sep : Char} :
    ∀ {s l : List Char}, l ∈ splitOnChar sep s → sep ∉ l := by
  intro s
  induction s with
  | nil =>
    intro l h
    rcases List.mem_singleton.mp h with h
    simp [h]
  | cons c rest ih =>
    intro l h
    unfold splitOnChar at h
    by_cases hc : c = sep
    · rw [if_pos hc] at h
      rcases List.mem_cons.mp h with h | h
      · simp [h]
      · exact ih h
    · rw [if_neg hc] at h
      rcases he : splitOnChar sep rest with _ | ⟨l0, ls⟩
      · exact absurd he (splitOnChar_ne_nil sep rest)
      · rw [he] at h
        rcases List.mem_cons.mp h with h | h
        · rw [h]
          intro hmem
          rcases List.mem_cons.mp hmem with hx | hx
          · exact hc hx.symm
          · exact ih (he ▸ List.mem_cons_self l0 ls) hx
        · exact ih (he ▸ List.mem_cons_of_mem l0 h)

theorem splitOnChar_of_not_mem {sep : Char} :
    ∀ {s : List Char}, sep ∉ s → splitOnChar sep s = [s] := by
  intro s
  induction s with
  | nil => intro _; rfl
  | cons c rest ih =>
    intro h
    have hc : ¬c = sep := fun he => h (he ▸ List.mem_cons_self c rest)
    have hrest : sep ∉ rest := fun hm => h (List.mem_cons_of_mem c hm)
    unfold splitOnChar
    rw [if_neg hc, ih hrest]

theorem splitOnChar_append_sep {sep : Char} :
    ∀ {a : List Char} (t : List Char), sep ∉ a →
      splitOnChar sep (a ++ sep :: t) = a :: splitOnChar sep t := by
  intro a
  induction a with
  | nil =>
    intro t _
    show splitOnChar sep (sep :: t) = [] :: splitOnChar sep t
    rw [splitOnChar, if_pos rfl]
  | cons c a0 ih =>
    intro t h
    have hc : ¬c = sep := fun he => h (he ▸ List.mem_cons_self c a0)
    have ha : sep ∉ a0 := fun hm => h (List.mem_cons_of_mem c hm)
    show splitOnChar sep (c :: (a0 ++ sep :: t)) = (c :: a0) :: splitOnChar sep t
    rw [splitOnChar, if_neg hc, ih t ha]

theorem splitOnChar_joinSep {sep : Char} :
    ∀ {L : List (List Char)}, L ≠ [] → (∀ l ∈ L, sep ∉ l) →
      splitOnChar sep (joinSep [sep] L) = L := by
  intro L
  induction L with
  | nil => intro h; exact absurd rfl h
  | cons a T ih =>
    intro _ hmem
    cases T with
    | nil =>
      show splitOnChar sep a = [a]
      exact splitOnChar_of_not_mem (hmem a (List.mem_cons_self a []))
    | cons b T0 =>
      have : joinSep [sep] (a :: b :: T0) = a ++ sep :: joinSep [sep] (b :: T0) := by
        show a ++ [sep] ++ joinSep [sep] (b :: T0) = a ++ sep :: joinSep [sep] (b :: T0)
        rw [List.append_assoc]
        rfl
      rw [this, splitOnChar_append_sep _ (hmem a (List.mem_cons_self a _)),
        ih (by simp) fun l hl => hmem l (List.mem_cons_of_mem a hl)]

theorem joinSep_head_ne {x : Char} :
    ∀ {L : List (List Char)}, (∀ l ∈ L, l ≠ [] ∧ x ∉ l) →
      (joinSep [x] L).head? ≠ some x := by
  intro L h
  cases L with
  | nil => simp [joinSep]
  | cons a T =>
    have ha := h a (List.mem_cons_self a T)
    rcases a with _ | ⟨c, a0⟩
    · exact absurd rfl ha.1
    · have hcx : c ≠ x := fun he => ha.2 (he ▸ List.mem_cons_self c a0)
      cases T with
      | nil =>
        show (c :: a0).head? ≠ some x
        simp [hcx]
      | cons b T0 =>
        show ((c :: a0) ++ [x] ++ joinSep [x] (b :: T0)).head? ≠ some x
        simp [hcx]

theorem joinSep_ne_nil_of_head {x : Char} {a : List Char} {T : List (List Char)}
    (ha : a ≠ []) : joinSep [x] (a :: T) ≠ [] := by
  cases T with
  | nil => exact ha
  | cons b T0 =>
    show a ++ [x] ++ joinSep [x] (b :: T0) ≠ []
    simp

theorem joinSep_getLast_ne {x : Char} :
    ∀ {L : List (List Char)}, (∀ l ∈ L, l ≠ [] ∧ x ∉ l) →
      (joinSep [x] L).getLast? ≠ some x := by
  intro L
  induction L with
  | nil => intro _; simp [joinSep]
  | cons a T ih =>
    intro h
    have ha := h a (List.mem_cons_self a T)
    cases T with
    | nil =>
      show a.getLast? ≠ some x
      intro hlast
      exact ha.2 (List.mem_of_getLast?_eq_some hlast)
    | cons b T0 =>
      show ((a ++ [x]) ++ joinSep [x] (b :: T0)).getLast? ≠ some x
      rw [List.getLast?_append]
      have hb : joinSep [x] (b :: T0) ≠ [] :=
        joinSep_ne_nil_of_head (h b (List.mem_cons_of_mem a (List.mem_cons_self b T0))).1
      have hih := ih fun l hl => h l (List.mem_cons_of_mem a hl)
      rcases hlast : (joinSep [x] (b :: T0)).getLast? with _ | c
      · exact absurd (List.getLast?_eq_none_iff.mp hlast) hb
      · rw [hlast] at hih
        simpa using hih

theorem normalizeCellValue_lines (s : List Char) :
    ∃ L : List (List Char), normalizeCellValue s = joinSep ['\n'] L ∧
      ∀ l ∈ L, l ≠ [] ∧ '\n' ∉ l := by
  refine ⟨((splitOnChar '\n' (normCR s)).map fun l =>
    trimWs (collapseRuns isHSB l)).filter (fun l => decide (l ≠ [])), rfl, ?_⟩
  intro l hl
  rw [List.mem_filter] at hl
  refine ⟨by simpa using hl.2, ?_⟩
  rcases List.mem_map.mp hl.1 with ⟨l0, hl0, rfl⟩
  intro hmem
  have hm2 := mem_trimWs hmem
  rcases mem_collapseRuns hm2 with h | h
  · exact absurd h (by decide)
  · exact mem_splitOnChar_not_sep hl0 h

/-- C10.  `normalizeCellValue` removes blank lines: for every string, every
line of the result is nonempty (unless the result is empty), the result
neither begins nor ends with a newline, and on the concrete input with a
blank middle line the blank line is deleted. -/
theorem c10_normalize_cell_value_blank_lines :
    (∀ s : List Char,
      (normalizeCellValue s = [] ∨
        ∀ l ∈ splitOnChar '\n' (normalizeCellValue s), l ≠ []) ∧
      (normalizeCellValue s).head? ≠ some '\n' ∧
      (normalizeCellValue s).getLast? ≠ some '\n') ∧
    normalizeCellValue "a\n\nb".data = "a\nb".data := by
  constructor
  · intro s
    obtain ⟨L, hdef, hprop⟩ := normalizeCellValue_lines s
    rw [hdef]
    refine ⟨?_, joinSep_head_ne hprop, joinSep_getLast_ne hprop⟩
    by_cases hLnil : L = []
    · left; rw [hLnil]; rfl
    · right
      rw [splitOnChar_joinSep hLnil fun l hl => (hprop l hl).2]
      exact fun l hl => (hprop l hl).1
  · decide

unseal Rat.add Rat.sub Rat.mul Rat.inv in
/-- C2 counterexample: three same-page fragments at y 10, 8.5 and 7 with
tolerance 2.  The fragments at 8.5 and 7 satisfy `|Δy| ≤ yTolerance` yet
land in different rows, because the first row's running average (9.25 after
absorbing 10 and 8.5) has drifted away from 7. -/
theorem c2_row_grouping_counterexample :
    fragB.page = fragC.page ∧ |fragB.y - fragC.y| ≤ 2 ∧
      ∀ r ∈ groupIntoRows [fragA, fragB, fragC] 2,
        ¬(fragB ∈ r.cells ∧ fragC ∈ r.cells) := by
  decide

theorem mem_rowSort_iff {r : ExtractedRow} {X : List ExtractedRow} :
    r ∈ List.insertionSort rowLe X ↔ r ∈ X :=
  (List.perm_insertionSort rowLe X).mem_iff

theorem mem_cellSort_iff {c : ExtractedCell} {X : List ExtractedCell} :
    c ∈ List.insertionSort cellXLe X ↔ c ∈ X :=
  (List.perm_insertionSort cellXLe X).mem_iff

theorem insertionSort_pair (F S : ExtractedCell) :
    List.insertionSort cellLe [F, S] = if cellLe F S then [F, S] else [S, F] := by
  by_cases h : cellLe F S <;> simp [List.insertionSort, List.orderedInsert, h]

theorem foldl_pair_same (F S : ExtractedCell) (tol : ℚ) (hpage : F.page = S.page)
    (hy : |F.y - S.y| ≤ tol) :
    List.foldl (insertCell tol) [] [F, S] =
      [⟨F.page, (F.y * ((1 : ℕ) : ℚ) + S.y) / (((1 : ℕ) : ℚ) + 1), [F, S]⟩] := by
  simp [List.foldl, insertCell, hpage, hy]

theorem foldl_pair_diff (F S : ExtractedCell) (tol : ℚ)
    (hy : ¬(F.page = S.page ∧ |F.y - S.y| ≤ tol)) :
    List.foldl (insertCell tol) [] [F, S] =
      [⟨F.page, F.y, [F]⟩, ⟨S.page, S.y, [S]⟩] := by
  rcases Decidable.not_and_iff_or_not.mp hy with h | h <;>
    simp [List.foldl, insertCell, h]

/-- C2 (amended).  Row grouping for an isolated pair: when fragments A and B
are the only fragments presented to `groupIntoRows`, they share a page and
`|A.y - B.y| ≤ yTolerance`, they end up in the same row, and when
`|A.y - B.y| > yTolerance` they end up in different rows.  (With further
fragments present the guarantee only relates a fragment to a row's running
average, which drifts, as the counterexample records.) -/
theorem c2_row_grouping_stability_amended (A B : ExtractedCell) (tol : ℚ)
    (hpage : A.page = B.page) (hne : A ≠ B) :
    (|A.y - B.y| ≤ tol →
      ∃ r ∈ groupIntoRows [A, B] tol, A ∈ r.cells ∧ B ∈ r.cells) ∧
    (tol < |A.y - B.y| →
      ∀ r ∈ groupIntoRows [A, B] tol, ¬(A ∈ r.cells ∧ B ∈ r.cells)) := by
  have habs : |B.y - A.y| = |A.y - B.y| := abs_sub_comm _ _
  constructor
  · intro hy
    simp only [groupIntoRows, insertionSort_pair]
    by_cases hAB : cellLe A B
    · rw [if_pos hAB, foldl_pair_same A B tol hpage hy]
      simp only [List.map_cons, List.map_nil]
      refine ⟨⟨A.page, (A.y * ((1 : ℕ) : ℚ) + B.y) / (((1 : ℕ) : ℚ) + 1),
          List.insertionSort cellXLe [A, B]⟩, ?_, ?_, ?_⟩
      · exact mem_rowSort_iff.mpr (List.mem_singleton.mpr rfl)
      · show A ∈ List.insertionSort cellXLe [A, B]
        rw [mem_cellSort_iff]; simp
      · show B ∈ List.insertionSort cellXLe [A, B]
        rw [mem_cellSort_iff]; simp
    · rw [if_neg hAB, foldl_pair_same B A tol hpage.symm (habs ▸ hy)]
      simp only [List.map_cons, List.map_nil]
      refine ⟨⟨B.page, (B.y * ((1 : ℕ) : ℚ) + A.y) / (((1 : ℕ) : ℚ) + 1),
          List.insertionSort cellXLe [B, A]⟩, ?_, ?_, ?_⟩
      · exact mem_rowSort_iff.mpr (List.mem_singleton.mpr rfl)
      · show A ∈ List.insertionSort cellXLe [B, A]
        rw [mem_cellSort_iff]; simp
      · show B ∈ List.insertionSort cellXLe [B, A]
        rw [mem_cellSort_iff]; simp
  · intro hy r hr hand
    have hnle : ¬(A.page = B.page ∧ |A.y - B.y| ≤ tol) :=
      fun hc => absurd hc.2 (not_le.mpr hy)
    have hnle2 : ¬(B.page = A.page ∧ |B.y - A.y| ≤ tol) :=
      fun hc => absurd (habs ▸ hc.2) (not_le.mpr hy)
    simp only [groupIntoRows, insertionSort_pair] at hr
    by_cases hAB : cellLe A B
    · rw [if_pos hAB, foldl_pair_diff A B tol hnle] at hr
      simp only [List.map_cons, List.map_nil] at hr
      rw [mem_rowSort_iff] at hr
      rcases List.mem_cons.mp hr with h | h
      · rw [h] at hand
        have hBmem : B ∈ List.insertionSort cellXLe [A] := hand.2
        rw [mem_cellSort_iff] at hBmem
        exact hne (List.mem_singleton.mp hBmem ▸ rfl)
      · rcases List.mem_cons.mp h with h | h
        · rw [h] at hand
          have hAmem : A ∈ List.insertionSort cellXLe [B] := hand.1
          rw [mem_cellSort_iff] at hAmem
          exact hne (List.mem_singleton.mp hAmem)
        · cases h
    · rw [if_neg hAB, foldl_pair_diff B A tol hnle2] at hr
      simp only [List.map_cons, List.map_nil] at hr
      rw [mem_rowSort_iff] at hr
      rcases List.mem_cons.mp hr with h | h
      · rw [h] at hand
        have hAmem : A ∈ List.insertionSort cellXLe [B] := hand.1
        rw [mem_cellSort_iff] at hAmem
        exact hne (List.mem_singleton.mp hAmem)
      · rcases List.mem_cons.mp h with h | h
        · rw [h] at hand
          have hBmem : B ∈ List.insertionSort cellXLe [A] := hand.2
          rw [mem_cellSort_iff] at hBmem
          exact hne (List.mem_singleton.mp hBmem ▸ rfl)
        · cases h

unseal Rat.add Rat.sub Rat.mul Rat.inv in
/-- C2 witness: two isolated same-page fragments within tolerance share a
row. -/
theorem c2_row_grouping_stability_witness :
    (fragA.page = fragB.page ∧ fragA ≠ fragB ∧ |fragA.y - fragB.y| ≤ 2) ∧
      ∃ r ∈ groupIntoRows [fragA, fragB] 2, fragA ∈ r.cells ∧ fragB ∈ r.cells :=
  ⟨by decide,
    (c2_row_grouping_stability_amended fragA fragB 2 (by decide) (by decide)).1
      (by decide)⟩

theorem insertCell_flatten_perm (tol : ℚ) (c : ExtractedCell) :
    ∀ rows : List ExtractedRow,
      ((insertCell tol rows c).map ExtractedRow.cells).flatten.Perm
        (c :: (rows.map ExtractedRow.cells).flatten) := by
  intro rows
  induction rows with
  | nil => simp [insertCell]
  | cons r rs ih =>
    unfold insertCell
    by_cases h : r.page = c.page ∧ |r.y - c.y| ≤ tol
    · rw [if_pos h]
      simp only [List.map_cons, List.flatten_cons, List.append_assoc,
        List.singleton_append]
      exact List.perm_middle
    · rw [if_neg h]
      simp only [List.map_cons, List.flatten_cons]
      exact (ih.append_left r.cells).trans List.perm_middle

theorem foldl_insertCell_perm (tol : ℚ) :
    ∀ (cs : List ExtractedCell) (rows : List ExtractedRow),
      ((cs.foldl (insertCell tol) rows).map ExtractedRow.cells).flatten.Perm
        (cs ++ (rows.map ExtractedRow.cells).flatten) := by
  intro cs
  induction cs with
  | nil => intro rows; simp
  | cons c cs ih =>
    intro rows
    rw [List.foldl_cons]
    refine (ih (insertCell tol rows c)).trans ?_
    refine ((insertCell_flatten_perm tol c rows).append_left cs).trans ?_
    exact List.perm_middle

theorem resort_flatten_perm :
    ∀ rows : List ExtractedRow,
      (((rows.map fun r =>
        (⟨r.page, r.y, List.insertionSort cellXLe r.cells⟩ : ExtractedRow)).map
          ExtractedRow.cells).flatten).Perm
        ((rows.map ExtractedRow.cells).flatten) := by
  intro rows
  induction rows with
  | nil => simp
  | cons r rs ih =>
    simp only [List.map_cons, List.flatten_cons]
    exact (List.perm_insertionSort cellXLe r.cells).append ih

theorem insertCell_pages (tol : ℚ) (c : ExtractedCell) :
    ∀ rows : List ExtractedRow,
      (∀ r ∈ rows, ∀ d ∈ r.cells, d.page = r.page) →
        ∀ r ∈ insertCell tol rows c, ∀ d ∈ r.cells, d.page = r.page := by
  intro rows
  induction rows with
  | nil =>
    intro _ r hr d hd
    rcases List.mem_singleton.mp hr with rfl
    rcases List.mem_singleton.mp hd with rfl
    rfl
  | cons r0 rs ih =>
    intro hall r hr d hd
    unfold insertCell at hr
    by_cases h : r0.page = c.page ∧ |r0.y - c.y| ≤ tol
    · rw [if_pos h] at hr
      rcases List.mem_cons.mp hr with rfl | hmem
      · rcases List.mem_append.mp hd with hd | hd
        · exact hall r0 (List.mem_cons_self r0 rs) d hd
        · rcases List.mem_singleton.mp hd with rfl
          exact h.1.symm
      · exact hall r (List.mem_cons_of_mem r0 hmem) d hd
    · rw [if_neg h] at hr
      rcases List.mem_cons.mp hr with rfl | hmem
      · exact hall r (List.mem_cons_self r rs) d hd
      · exact ih (fun q hq => hall q (List.mem_cons_of_mem r0 hq)) r hmem d hd

theorem foldl_insertCell_pages (tol : ℚ) :
    ∀ (cs : List ExtractedCell) (rows : List ExtractedRow),
      (∀ r ∈ rows, ∀ d ∈ r.cells, d.page = r.page) →
        ∀ r ∈ cs.foldl (insertCell tol) rows, ∀ d ∈ r.cells, d.page = r.page := by
  intro cs
  induction cs with
  | nil => intro rows h; exact h
  | cons c cs ih =>
    intro rows h
    rw [List.foldl_cons]
    exact ih (insertCell tol rows c) (insertCell_pages tol c rows h)

/-- C8.  Row grouping is a partition: flattening the cells of the rows
produced by `groupIntoRows` is a permutation of the input fragments (no
fragment is dropped or duplicated), and every cell of an output row lies on
that row's page. -/
theorem c8_grouping_partition (cells : List ExtractedCell) (tol : ℚ) :
    ((groupIntoRows cells tol).map ExtractedRow.cells).flatten.Perm cells ∧
      ∀ r ∈ groupIntoRows cells tol, ∀ c ∈ r.cells, c.page = r.page := by
  constructor
  · show ((List.insertionSort rowLe _).map ExtractedRow.cells).flatten.Perm cells
    refine (((List.perm_insertionSort rowLe _).map ExtractedRow.cells).flatten).trans ?_
    refine (resort_flatten_perm _).trans ?_
    refine (foldl_insertCell_perm tol _ []).trans ?_
    simpa using List.perm_insertionSort cellLe cells
  · intro r hr c hc
    rw [show groupIntoRows cells tol = List.insertionSort rowLe
      (((List.insertionSort cellLe cells).foldl (insertCell tol) []).map fun r =>
        (⟨r.page, r.y, List.insertionSort cellXLe r.cells⟩ : ExtractedRow)) from rfl,
      mem_rowSort_iff] at hr
    rcases List.mem_map.mp hr with ⟨r0, hr0, rfl⟩
    have hbase := foldl_insertCell_pages tol (List.insertionSort cellLe cells) []
      (by intro r hmem; cases hmem)
    have hc0 : c ∈ r0.cells := mem_cellSort_iff.mp hc
    exact hbase r0 hr0 c hc0

/-- C8 witness: the partition facts evaluated on the three-fragment
fixture. -/
theorem c8_grouping_partition_witness :
    ((groupIntoRows [fragA, fragB, fragC] 2).map
        ExtractedRow.cells).flatten.Perm [fragA, fragB, fragC] :=
  (c8_grouping_partition [fragA, fragB, fragC] 2).1

theorem sortAsc_sorted (xs : List ℚ) :
    List.Sorted (fun a b : ℚ => a ≤ b) (sortAsc xs) :=
  List.sorted_insertionSort _ xs

theorem sortAsc_head_le {xs : List ℚ} {l : ℚ} (hl : l ∈ sortAsc xs) :
    (sortAsc xs).getD 0 0 ≤ l := by
  have hs := sortAsc_sorted xs
  rcases he : sortAsc xs with _ | ⟨a, t⟩
  · rw [he] at hl; cases hl
  · rw [he] at hl hs
    rcases List.mem_cons.mp hl with rfl | hmem
    · exact le_refl l
    · exact List.rel_of_sorted_cons hs l hmem

theorem splitBlocks_cells_spec (row : ExtractedRow) (S : List ℚ) :
    ∀ b ∈ splitBlocks row S, ∀ c ∈ b.cells,
      ∃ c0 ∈ row.cells, ∃ l ∈ S,
        c = { c0 with x := c0.x - l } ∧ l - 1 ≤ c0.x := by
  intro b hb c hc
  rcases List.mem_filterMap.mp hb with ⟨bi, _, heq⟩
  rcases hg : S.get? bi with _ | left
  · rw [hg] at heq; cases heq
  · rw [hg] at heq
    simp only [Option.ite_none_right_eq_some, Option.some_inj] at heq
    rcases heq with ⟨hlen, rfl⟩
    have hc2 := mem_cellSort_iff.mp hc
    rcases List.mem_map.mp hc2 with ⟨c0, hc0, rfl⟩
    rw [List.mem_filter] at hc0
    refine ⟨c0, hc0.1, left, List.get?_mem hg, rfl, ?_⟩
    have hcond := hc0.2
    rw [Bool.and_eq_true, decide_eq_true_iff] at hcond
    linarith [hcond.1]

/-- C9.  The clustered record-start path drops cells left of the first
start: when strategy 1 does not fire, the clustered starts number at least
two with a maximum gap of at least 140, and at least one block survives,
`explodeMultiRecordRow` returns exactly the blocks of `splitBlocks`; every
cell of every emitted block is an original cell re-zeroed by its block
start whose original x is at least `firstStart - 1`; and a cell lying more
than one unit left of the first detected start is reconstructed by no
emitted cell under any block start, so it is silently discarded. -/
theorem c9_clustered_split_drops_left_cells (row : ExtractedRow)
    (h1 : ¬strategy1Cond row)
    (h2 : 2 ≤ (startsOf row).length)
    (h3 : 140 ≤ maxGap (startsOf row))
    (h4 : splitBlocks row (startsOf row) ≠ []) :
    explodeMultiRecordRow row = splitBlocks row (startsOf row) ∧
      (∀ b ∈ splitBlocks row (startsOf row), ∀ c ∈ b.cells,
        ∃ c0 ∈ row.cells, ∃ l ∈ startsOf row,
          c = { c0 with x := c0.x - l } ∧
            (startsOf row).getD 0 0 - 1 ≤ c0.x) ∧
      ∀ c0 ∈ row.cells, c0.x < (startsOf row).getD 0 0 - 1 →
        ∀ b ∈ splitBlocks row (startsOf row), ∀ c ∈ b.cells,
          ∀ l ∈ startsOf row, c.x + l ≠ c0.x := by
  have hnotshort : ¬(startsOf row).length ≤ 1 := by omega
  have hnotgap : ¬maxGap (startsOf row) < 140 := not_lt.mpr h3
  refine ⟨?_, ?_, ?_⟩
  · unfold explodeMultiRecordRow
    by_cases hid : 2 ≤ (idCellsOf row).length
    · rw [if_pos hid]
      have hfin : sortAsc (clusterXs
          (if serialStarts row = [] then recordStartXs row else serialStarts row)
          18) = startsOf row := by
        unfold startsOf effStartXsOf; rw [if_pos hid]
      by_cases hanch : 2 ≤ (idAnchorsOf row).length ∧ 160 ≤ maxGap (idAnchorsOf row)
      · rw [if_pos hanch]
        have hblocks : ¬2 ≤ (anchorBlocks row (idAnchorsOf row)).length := by
          intro hb
          exact h1 ⟨hid, hanch.1, hanch.2, hb⟩
        rw [if_neg hblocks]
        simp only [explodeFinish, hfin]
        rw [if_neg hnotshort, if_neg hnotgap, if_neg h4]
      · rw [if_neg hanch]
        simp only [explodeFinish, hfin]
        rw [if_neg hnotshort, if_neg hnotgap, if_neg h4]
    · rw [if_neg hid]
      have hfin : sortAsc (clusterXs (recordStartXs row) 18) = startsOf row := by
        unfold startsOf effStartXsOf; rw [if_neg hid]
      simp only [explodeFinish, ite_true, eq_self_iff_true, hfin]
      rw [if_neg hnotshort, if_neg hnotgap, if_neg h4]
  · intro b hb c hc
    rcases splitBlocks_cells_spec row (startsOf row) b hb c hc with
      ⟨c0, hc0, l, hl, hceq, hlx⟩
    refine ⟨c0, hc0, l, hl, hceq, ?_⟩
    have hhead : (startsOf row).getD 0 0 ≤ l := sortAsc_head_le hl
    linarith
  · intro c0 hc0 hx b hb c hc l hl
    rcases splitBlocks_cells_spec row (startsOf row) b hb c hc with
      ⟨c1, _, l1, hl1, hceq, hlx⟩
    have hcx : c.x = c1.x - l1 := by rw [hceq]
    have hhead1 : (startsOf row).getD 0 0 ≤ l1 := sortAsc_head_le hl1
    have hhead : (startsOf row).getD 0 0 ≤ l := sortAsc_head_le hl
    intro heq
    rw [hcx] at heq
    linarith

unseal Rat.add Rat.sub Rat.mul Rat.inv in
/-- C9 witness: on the two-record fixture row the splitter takes the
clustered record-start path and the stray cell at x = -80 (more than one
unit left of the first start 0) is reconstructed by no emitted cell. -/
theorem c9_clustered_split_drops_left_cells_witness :
    (¬strategy1Cond c9Row ∧ 2 ≤ (startsOf c9Row).length ∧
      140 ≤ maxGap (startsOf c9Row) ∧ splitBlocks c9Row (startsOf c9Row) ≠ []) ∧
      explodeMultiRecordRow c9Row = splitBlocks c9Row (startsOf c9Row) :=
  ⟨by decide,
    (c9_clustered_split_drops_left_cells c9Row (by decide) (by decide) (by decide)
      (by decide)).1⟩

theorem replaceCRLF_no_cr : ∀ {s : List Char}, '\r' ∉ s → replaceCRLF s = s := by
  intro s
  induction s with
  | nil => intro _; rfl
  | cons c tail ih =>
    intro h
    have hc : ¬c = '\r' := fun he => h (by rw [← he]; exact List.mem_cons_self c tail)
    have ht : '\r' ∉ tail := fun hm => h (List.mem_cons_of_mem c hm)
    cases tail with
    | nil => rfl
    | cons d rest =>
      show replaceCRLF (c :: d :: rest) = c :: d :: rest
      rw [replaceCRLF, if_neg fun hand => hc hand.1, ih ht]

theorem replaceCR_no_cr : ∀ {s : List Char}, '\r' ∉ s → replaceCR s = s := by
  intro s
  induction s with
  | nil => intro _; rfl
  | cons c tail ih =>
    intro h
    have hc : ¬c = '\r' := fun he => h (by rw [← he]; exact List.mem_cons_self c tail)
    have ht : '\r' ∉ tail := fun hm => h (List.mem_cons_of_mem c hm)
    show replaceCR (c :: tail) = c :: tail
    simp only [replaceCR, List.map_cons, if_neg hc]
    rw [show List.map (fun c => if c = '\r' then '\n' else c) tail = replaceCR tail
      from rfl, ih ht]

theorem normCR_no_cr {s : List Char} (h : '\r' ∉ s) : normCR s = s := by
  unfold normCR
  rw [replaceCRLF_no_cr h, replaceCR_no_cr h]

theorem escCsv_eq_ite (v : List Char) :
    escCsv v = if v.any isCsvSpecial then '"' :: (dupQuotes (normCR v) ++ ['"'])
      else normCR v := rfl

theorem not_special_fields {c : Char} (h : ¬isCsvSpecial c = true) :
    ¬c = '\n' ∧ ¬c = '\r' ∧ ¬c = '"' ∧ ¬c = ',' := by
  refine ⟨?_, ?_, ?_, ?_⟩ <;> rintro rfl <;> exact h (by decide)

theorem runCsv_unq_plain :
    ∀ (s : List Char), (∀ c ∈ s, ¬c = ',' ∧ ¬c = '\n') →
      ∀ (f : List Char) (row : List (List Char))
        (rows : List (List (List Char))) (rest : List Char),
        runCsv CsvMode.unq f row rows (s ++ rest) =
          runCsv CsvMode.unq (f ++ s) row rows rest := by
  intro s
  induction s with
  | nil => intro _ f row rows rest; simp
  | cons c cs ih =>
    intro h f row rows rest
    have hc := h c (List.mem_cons_self c cs)
    show runCsv CsvMode.unq f row rows (c :: (cs ++ rest)) = _
    rw [runCsv]
    simp only [if_neg hc.1, if_neg hc.2]
    have h2 := ih (fun d hd => h d (List.mem_cons_of_mem c hd)) (f ++ [c]) row rows rest
    rw [List.append_assoc] at h2
    exact h2

theorem runCsv_quoted :
    ∀ (s f : List Char) (row : List (List Char))
      (rows : List (List (List Char))) (rest : List Char),
      runCsv CsvMode.q f row rows (dupQuotes s ++ '"' :: rest) =
        runCsv CsvMode.qq (f ++ s) row rows rest := by
  intro s
  induction s with
  | nil =>
    intro f row rows rest
    rw [List.append_nil]
    rfl
  | cons c cs ih =>
    intro f row rows rest
    by_cases hq : c = '"'
    · subst hq
      show runCsv CsvMode.q f row rows
        ('"' :: ('"' :: (dupQuotes cs ++ '"' :: rest))) = _
      have h2 := ih (f ++ ['"']) row rows rest
      rw [List.append_assoc] at h2
      exact h2
    · have hd : dupQuotes (c :: cs) = c :: dupQuotes cs := by
        rw [dupQuotes, if_neg hq]
      rw [hd]
      show runCsv CsvMode.q f row rows (c :: (dupQuotes cs ++ '"' :: rest)) = _
      rw [runCsv]
      simp only [if_neg hq]
      have h2 := ih (f ++ [c]) row rows rest
      rw [List.append_assoc] at h2
      exact h2

theorem runCsv_cell (v : List Char) (hv : '\r' ∉ v) (row : List (List Char))
    (rows : List (List (List Char))) (d : Char) (rest : List Char)
    (hd : d = ',' ∨ d = '\n') :
    runCsv CsvMode.startF [] row rows (escCsv v ++ d :: rest) =
      if d = ',' then runCsv CsvMode.startF [] (row ++ [v]) rows rest
      else runCsv CsvMode.startF [] [] (rows ++ [row ++ [v]]) rest := by
  by_cases hneeds : v.any isCsvSpecial = true
  · have hesc : escCsv v = '"' :: (dupQuotes v ++ ['"']) := by
      rw [escCsv_eq_ite, if_pos hneeds, normCR_no_cr hv]
    rw [hesc]
    have step1 : ('"' :: (dupQuotes v ++ ['"'])) ++ d :: rest =
        '"' :: (dupQuotes v ++ '"' :: (d :: rest)) := by
      simp
    rw [step1]
    have step2 : runCsv CsvMode.startF [] row rows
        ('"' :: (dupQuotes v ++ '"' :: (d :: rest))) =
        runCsv CsvMode.q [] row rows (dupQuotes v ++ '"' :: (d :: rest)) := rfl
    rw [step2, runCsv_quoted v [] row rows (d :: rest)]
    rcases hd with rfl | rfl
    · rw [if_pos rfl]
      rfl
    · rw [if_neg (by decide : ¬('\n' = ','))]
      rfl
  · have hall : ∀ c ∈ v, ¬isCsvSpecial c = true := by
      intro c hc hspec
      exact hneeds (List.any_eq_true.mpr ⟨c, hc, hspec⟩)
    have hesc : escCsv v = v := by
      rw [escCsv_eq_ite, if_neg hneeds, normCR_no_cr hv]
    rw [hesc]
    cases v with
    | nil =>
      rcases hd with rfl | rfl
      · rw [if_pos rfl]; rfl
      · rw [if_neg (by decide : ¬('\n' = ','))]; rfl
    | cons c cs =>
      have hc := not_special_fields (hall c (List.mem_cons_self c cs))
      show runCsv CsvMode.startF [] row rows (c :: (cs ++ d :: rest)) = _
      rw [runCsv]
      simp only [if_neg hc.2.2.1, if_neg hc.2.2.2, if_neg hc.1, List.nil_append]
      rw [runCsv_unq_plain cs
        (fun e he => ⟨(not_special_fields (hall e (List.mem_cons_of_mem c he))).2.2.2,
          (not_special_fields (hall e (List.mem_cons_of_mem c he))).1⟩)
        [c] row rows (d :: rest)]
    -- now one unquoted step remains on d
      rcases hd with rfl | rfl
      · rw [if_pos rfl]
        rfl
      · rw [if_neg (by decide : ¬('\n' = ','))]
        rfl

theorem runCsv_line :
    ∀ (cells : List (List Char)), cells ≠ [] → (∀ v ∈ cells, '\r' ∉ v) →
      ∀ (row : List (List Char)) (rows : List (List (List Char))) (rest : List Char),
        runCsv CsvMode.startF [] row rows (csvLine cells ++ '\n' :: rest) =
          runCsv CsvMode.startF [] [] (rows ++ [row ++ cells]) rest := by
  intro cells
  induction cells with
  | nil => intro h; exact absurd rfl h
  | cons v vs ih =>
    intro _ hcr row rows rest
    cases vs with
    | nil =>
      show runCsv CsvMode.startF [] row rows (escCsv v ++ '\n' :: rest) = _
      rw [runCsv_cell v (hcr v (List.mem_cons_self v [])) row rows '\n' rest
        (Or.inr rfl), if_neg (by decide : ¬('\n' = ','))]
    | cons w ws =>
      have hline : csvLine (v :: w :: ws) ++ '\n' :: rest =
          escCsv v ++ ',' :: (csvLine (w :: ws) ++ '\n' :: rest) := by
        show (escCsv v ++ [','] ++ joinSep [','] (escCsv w :: ws.map escCsv)) ++
          '\n' :: rest = _
        simp [List.append_assoc, csvLine]
      rw [hline]
      rw [runCsv_cell v (hcr v (List.mem_cons_self v _)) row rows ','
        (csvLine (w :: ws) ++ '\n' :: rest) (Or.inl rfl), if_pos rfl]
      rw [ih (by simp) (fun u hu => hcr u (List.mem_cons_of_mem v hu))
        (row ++ [v]) rows rest]
      rw [List.append_assoc]
      rfl

theorem runCsv_table :
    ∀ (T : List (List (List Char))), (∀ r ∈ T, r ≠ []) →
      (∀ r ∈ T, ∀ v ∈ r, '\r' ∉ v) →
      ∀ acc : List (List (List Char)),
        runCsv CsvMode.startF [] [] acc
          ((T.map fun r => csvLine r ++ ['\n']).flatten) = acc ++ T := by
  intro T
  induction T with
  | nil =>
    intro _ _ acc
    simp [runCsv]
  | cons r T0 ih =>
    intro hrows hcr acc
    have hflat : ((r :: T0).map fun q => csvLine q ++ ['\n']).flatten =
        csvLine r ++ '\n' :: (T0.map fun q => csvLine q ++ ['\n']).flatten := by
      simp
    rw [hflat]
    rw [runCsv_line r (hrows r (List.mem_cons_self r T0))
      (hcr r (List.mem_cons_self r T0)) [] acc
      ((T0.map fun q => csvLine q ++ ['\n']).flatten)]
    rw [List.nil_append]
    rw [ih (fun q hq => hrows q (List.mem_cons_of_mem r hq))
      (fun q hq => hcr q (List.mem_cons_of_mem r hq)) (acc ++ [r])]
    simp

theorem toCsv_eq_flatten :
    ∀ {T : List (List (List Char))}, T ≠ [] →
      toCsv T = (T.map fun r => csvLine r ++ ['\n']).flatten := by
  intro T
  induction T with
  | nil => intro h; exact absurd rfl h
  | cons r T0 ih =>
    intro _
    cases T0 with
    | nil =>
      show joinSep ['\n'] [csvLine r] ++ ['\n'] = _
      simp [joinSep]
    | cons r2 T1 =>
      have hstep : toCsv (r :: r2 :: T1) = csvLine r ++ '\n' :: toCsv (r2 :: T1) := by
        show (csvLine r ++ ['\n'] ++
          joinSep ['\n'] (csvLine r2 :: T1.map csvLine)) ++ ['\n'] = _
        simp [toCsv, csvLine]
      rw [hstep, ih (by simp)]
      simp

/-- C4.  CSV escaping and round trip: a cell is emitted quoted exactly when
it contains a newline, carriage return, comma or double quote; and a
standard RFC4180 parse of `toCsv` recovers every table whose rows are
nonempty and whose cell values are free of bare carriage returns (CR and
CRLF are normalized to LF before quoting), in particular tables whose cells
embed commas, LF newlines and quote characters. -/
theorem c4_csv_quoting_roundtrip :
    (∀ v : List Char,
      (∃ c ∈ v, isCsvSpecial c = true) ↔ ∃ m, escCsv v = '"' :: (m ++ ['"'])) ∧
    ∀ T : List (List (List Char)), T ≠ [] → (∀ r ∈ T, r ≠ []) →
      (∀ r ∈ T, ∀ v ∈ r, '\r' ∉ v) → parseCsv (toCsv T) = T := by
  constructor
  · intro v
    constructor
    · intro hex
      have hany : v.any isCsvSpecial = true := List.any_eq_true.mpr hex
      exact ⟨dupQuotes (normCR v), by rw [escCsv_eq_ite, if_pos hany]⟩
    · rintro ⟨m, hm⟩
      by_cases hany : v.any isCsvSpecial = true
      · exact List.any_eq_true.mp hany
      · have hcr : '\r' ∉ v := by
          intro hmem
          exact hany (List.any_eq_true.mpr ⟨'\r', hmem, by decide⟩)
        rw [escCsv_eq_ite, if_neg hany, normCR_no_cr hcr] at hm
        refine ⟨'"', ?_, by decide⟩
        rw [hm]
        exact List.mem_cons_self _ _
  · intro T hT hrows hcr
    rw [toCsv_eq_flatten hT]
    show runCsv CsvMode.startF [] [] [] _ = T
    rw [runCsv_table T hrows hcr []]
    rfl

/-- C4 witness: the round trip evaluated on a concrete table whose single
row embeds a comma, a quote and a newline. -/
theorem c4_csv_quoting_roundtrip_witness :
    (c4Table ≠ [] ∧ (∀ r ∈ c4Table, r ≠ []) ∧
      (∀ r ∈ c4Table, ∀ v ∈ r, '\r' ∉ v)) ∧
      parseCsv (toCsv c4Table) = c4Table :=
  ⟨by decide,
    (c4_csv_quoting_roundtrip).2 c4Table (by decide) (by decide) (by decide)⟩

/-- C10 witness: the blank middle line of the concrete input is deleted. -/
theorem c10_normalize_cell_value_blank_lines_witness :
    normalizeCellValue "a\n\nb".data = "a\nb".data :=
  c10_normalize_cell_value_blank_lines.2
